import Mathlib

/-!
Shallow embedding of the zkbitcoin sanctions subsystem (`src/compliance.rs`,
`src/address_verifier.rs`) and of the transaction builder
(`src/mpc_sign_tx.rs`), together with theorems checking the natural-language specification
of the repository against this code.
-/

/-! ### Registry map model

Association-list model of the Rust `HashMap<String, bool>`: `insert` replaces
the value stored under an existing key and otherwise appends a fresh binding;
`contains_key` scans for the key.
-/

abbrev AddrMap := List (String × Bool)

def insertMap (m : AddrMap) (k : String) (v : Bool) : AddrMap :=
  if m.any (fun p => p.1 == k) then
    m.map (fun p => if p.1 == k then (k, v) else p)
  else
    m ++ [(k, v)]

def containsKey (m : AddrMap) (k : String) : Bool :=
  m.any (fun p => p.1 == k)

def insertAll (m : AddrMap) (ks : List String) : AddrMap :=
  ks.foldl (fun acc k => insertMap acc k true) m

/-! ### XML events

The events the two parse loops inspect (`xml::reader::XmlEvent`): start
element with local name and attributes (attribute local name, value),
character content, end element, a reader error (`Err(e)` from the iterator),
and `other` for every event kind the code matches with `_ => {}`.
-/

inductive XmlEvt where
  | startElement (name : String) (attributes : List (String × String))
  | characters (value : String)
  | endElement (name : String)
  | parseError
  | other
deriving DecidableEq

/-- Constant `AddressVerifier::BTC_ID`, identical in both source files. -/
def BTC_ID : String := "344"

/-- The event loop of `AddressVerifier::sync` (src/compliance.rs, lines
78-114): mutable flags `inside_feature_elem` (`f`) and `inside_final_elem`
(`v`), inserting character content into the map while `inside_final_elem`
holds, and `break` on a reader error. -/
def syncParse (f v : Bool) (m : AddrMap) : List XmlEvt → AddrMap
  | [] => m
  | .startElement name attributes :: rest =>
    if name == "Feature" then
      if attributes.any (fun a => a.1 == "FeatureTypeID" && a.2 == BTC_ID) then
        syncParse true v m rest
      else
        syncParse f v m rest
    else if name == "VersionDetail" && f then
      syncParse f true m rest
    else
      syncParse f v m rest
  | .characters value :: rest =>
    if v then syncParse f v (insertMap m value true) rest
    else syncParse f v m rest
  | .endElement name :: rest =>
    if name == "VersionDetail" && f then syncParse false false m rest
    else syncParse f v m rest
  | .parseError :: _ => m
  | .other :: rest => syncParse f v m rest

/-- The event loop inside `AddressVerifier::start` (src/address_verifier.rs,
lines 104-140), transcribed separately from that file; it inserts into the
`RwLock`-guarded map, whose membership semantics this list model shares. -/
def startParse (f v : Bool) (m : AddrMap) : List XmlEvt → AddrMap
  | [] => m
  | .startElement name attributes :: rest =>
    if name == "Feature" then
      if attributes.any (fun a => a.1 == "FeatureTypeID" && a.2 == BTC_ID) then
        startParse true v m rest
      else
        startParse f v m rest
    else if name == "VersionDetail" && f then
      startParse f true m rest
    else
      startParse f v m rest
  | .characters value :: rest =>
    if v then startParse f v (insertMap m value true) rest
    else startParse f v m rest
  | .endElement name :: rest =>
    if name == "VersionDetail" && f then startParse false false m rest
    else startParse f v m rest
  | .parseError :: _ => m
  | .other :: rest => startParse f v m rest

/-- The sequence of address strings the `sync` event loop inserts, in order,
starting from flags `f`, `v`; it follows exactly the flag updates of
`syncParse` and stops at a reader error. -/
def emitted (f v : Bool) : List XmlEvt → List String
  | [] => []
  | .startElement name attributes :: rest =>
    if name == "Feature" then
      if attributes.any (fun a => a.1 == "FeatureTypeID" && a.2 == BTC_ID) then
        emitted true v rest
      else
        emitted f v rest
    else if name == "VersionDetail" && f then
      emitted f true rest
    else
      emitted f v rest
  | .characters value :: rest =>
    if v then value :: emitted f v rest
    else emitted f v rest
  | .endElement name :: rest =>
    if name == "VersionDetail" && f then emitted false false rest
    else emitted f v rest
  | .parseError :: _ => []
  | .other :: rest => emitted f v rest

/-! ### The verifier state and one sync cycle

The struct `AddressVerifier` (compliance.rs): the membership map plus the `i64`
timestamp `last_update`. One call to `sync` is modelled as a pure function of
the current state and of the environment of the cycle: the result of
`publish_date()` (`none` models any probe failure) and the result of the full
fetch (`none` models a `reqwest::get` failure, `some none` a `res.text()`
failure, `some (some events)` a fetched body presented as the event sequence
the `EventReader` produces from it). The output records the new state,
whether `sync` returned `Ok`, and whether the full fetch was invoked.
-/

structure Verifier where
  sanctioned_addresses : AddrMap
  last_update : Int
deriving DecidableEq

/-- Model of `AddressVerifier::new()`. -/
def Verifier.new : Verifier :=
  { sanctioned_addresses := [], last_update := 0 }

structure CycleEnv where
  probe : Option Int
  fetch : Option (Option (List XmlEvt))
deriving DecidableEq

structure SyncOut where
  st : Verifier
  ok : Bool
  fetched : Bool
deriving DecidableEq

/-- Model of `AddressVerifier::sync` (src/compliance.rs, lines 64-120): probe; early
`Ok` return when `last_update >= publish_date`; otherwise assign
`last_update := publish_date`, fetch the body (errors propagate with `?`),
and run the event loop. -/
def sync (st : Verifier) (env : CycleEnv) : SyncOut :=
  match env.probe with
  | none => { st := st, ok := false, fetched := false }
  | some publish_date =>
    if st.last_update ≥ publish_date then
      { st := st, ok := true, fetched := false }
    else
      let st1 : Verifier := { st with last_update := publish_date }
      match env.fetch with
      | none => { st := st1, ok := false, fetched := true }
      | some none => { st := st1, ok := false, fetched := true }
      | some (some events) =>
        { st := { st1 with
                  sanctioned_addresses :=
                    syncParse false false st1.sanctioned_addresses events },
          ok := true, fetched := true }

/-- Model of `AddressVerifier::is_sanctioned`. -/
def is_sanctioned (st : Verifier) (address : String) : Bool :=
  containsKey st.sanctioned_addresses address

/-- A sequence of sync cycles, as driven by the loop in `start`. -/
def run (st : Verifier) (envs : List CycleEnv) : Verifier :=
  envs.foldl (fun s e => (sync s e).st) st

/-! ### Field extractor

The function `AddressVerifier::extract_from_xml` builds the regex
`(?<=TAG>)\s*(\w+)(?=</TAG)` (a lookbehind for the literal text `TAG>`, a
run of whitespace, a nonempty run of word characters, and a lookahead for
the literal text `</TAG`), takes the first match in the fragment, and parses
the matched text — which includes the `\s*` part — as a `u32`.

Strings are modelled as `List Char`; `\w`/`\s` as their ASCII classes. The
match is computed deterministically: because `\s` and `\w` are disjoint and
`<` belongs to neither class, the regex can only match, at a given position,
the maximal whitespace run followed by the maximal word run, with the
lookahead checked after it, so a position-by-position scan is faithful to
the leftmost-match semantics of the engine.
-/

def isSpaceChar (c : Char) : Bool :=
  c == ' ' || c == '\t' || c == '\n' || c == '\r' || c == '\x0b' || c == '\x0c'

def isWordChar (c : Char) : Bool :=
  c.isAlphanum || c == '_'

/-- Attempt the regex at one position: `pre` is the text before the position
(checked against the lookbehind), `post` the text from the position on. -/
def tryMatch (tag pre post : List Char) : Option (List Char) :=
  if (tag ++ ['>']).isSuffixOf pre then
    if ((post.dropWhile isSpaceChar).takeWhile isWordChar).isEmpty then none
    else if ('<' :: '/' :: tag).isPrefixOf
        ((post.dropWhile isSpaceChar).dropWhile isWordChar) then
      some (post.takeWhile isSpaceChar ++ (post.dropWhile isSpaceChar).takeWhile isWordChar)
    else none
  else none

/-- Model of `Regex::find`: the match at the leftmost position admitting one. -/
def findFirstMatch (tag : List Char) : List Char → List Char → Option (List Char)
  | pre, [] => tryMatch tag pre []
  | pre, c :: rest =>
    match tryMatch tag pre (c :: rest) with
    | some m => some m
    | none => findFirstMatch tag (pre ++ [c]) rest

/-- Numeric value of a digit string (most significant first). -/
def charsToNat (s : List Char) : Nat :=
  s.foldl (fun acc c => acc * 10 + (c.toNat - 48)) 0

/-- Rust `str::parse::<u32>`: an optional leading `+`, then a nonempty run
of ASCII digits, rejecting values outside the `u32` range. -/
def parseU32 (s : List Char) : Option Nat :=
  let digits :=
    match s with
    | c :: rest => if c == '+' then rest else s
    | [] => s
  if digits.isEmpty then none
  else if digits.all Char.isDigit then
    if charsToNat digits < 2 ^ 32 then some (charsToNat digits) else none
  else none

/-- Model of `AddressVerifier::extract_from_xml` (src/compliance.rs, lines 30-35):
`none` models the `Result` error on a failed match or a failed parse. -/
def extract_from_xml (str_value tag : List Char) : Option Nat :=
  (findFirstMatch tag [] str_value).bind parseU32

/-- First occurrence of `pat` in a list: `some (before, after)` splits the
list around the leftmost occurrence of `pat`. -/
def splitFirst (pat : List Char) : List Char → Option (List Char × List Char)
  | [] => if pat.isPrefixOf [] then some ([], []) else none
  | c :: rest =>
    if pat.isPrefixOf (c :: rest) then some ([], (c :: rest).drop pat.length)
    else (splitFirst pat rest).map (fun p => (c :: p.1, p.2))

/-- The extraction contract as the specification words it: the text enclosed
between the start marker of the tag `<TAG>` and end marker `</TAG>` at the first
occurrence of the tag, parsed as an unsigned integer; an error when no such
enclosed text exists or it is not numeric. -/
def specExtract (s tag : List Char) : Option Nat :=
  match splitFirst ('<' :: tag ++ ['>']) s with
  | none => none
  | some (_, rest) =>
    match splitFirst ('<' :: '/' :: tag ++ ['>']) rest with
    | none => none
    | some (content, _) => parseU32 content

/-- The concrete tag and markers used by the claims about the extractor. -/
def tagYear : List Char := ['Y', 'e', 'a', 'r']

def openYear : List Char := ['<', 'Y', 'e', 'a', 'r', '>']

def closeYear : List Char := ['<', '/', 'Y', 'e', 'a', 'r', '>']

/-! ### Transaction construction

The function `create_transaction` (src/mpc_sign_tx.rs, lines 15-70). Scripts are modelled
symbolically (`bitcoin::ScriptBuf` values the function builds: the empty
script, `Address::script_pubkey`, and `ScriptBuf::new_p2tr` for a key); the
`u64` subtractions computing the amount for Bob are modelled with wrapping
semantics, alongside a checked version used to state the underflow claim.
-/

inductive Script where
  | empty
  | ofAddress (a : String)
  | p2tr (internalKey : String)
deriving DecidableEq

structure OutPoint where
  txid : String
  vout : Nat
deriving DecidableEq

structure TxIn where
  previous_output : OutPoint
  script_sig : Script
  sequence : Nat
  witness : List String
deriving DecidableEq

structure TxOut where
  value : Nat
  script_pubkey : Script
deriving DecidableEq

structure Transaction where
  version : Nat
  lock_time : Nat
  input : List TxIn
  output : List TxOut
deriving DecidableEq

/-- Constant `constants::ZKBITCOIN_PUBKEY`; the literal lives in `constants.rs`,
outside the given sources, and no claim depends on its value. -/
def ZKBITCOIN_PUBKEY : String := "zkbitcoin-public-key"

/-- Constant `Sequence::MAX`. -/
def sequenceMax : Nat := 2 ^ 32 - 1

/-- Wrapping `u64` subtraction (release-profile Rust semantics). -/
def u64sub (a b : Nat) : Nat :=
  if b ≤ a then a - b else a + 2 ^ 64 - b

/-- The payout computation with checked subtractions: `none` exactly when
`satoshi_amount - fee_bitcoin_sat - fee_zkbitcoin_sat` underflows. -/
def checkedPayout (satoshi_amount fee_bitcoin_sat fee_zkbitcoin_sat : Nat) : Option Nat :=
  if fee_bitcoin_sat ≤ satoshi_amount then
    if fee_zkbitcoin_sat ≤ satoshi_amount - fee_bitcoin_sat then
      some (satoshi_amount - fee_bitcoin_sat - fee_zkbitcoin_sat)
    else none
  else none

/-- Model of `create_transaction` (src/mpc_sign_tx.rs, lines 15-70). -/
def create_transaction (utxo : String × Nat) (satoshi_amount : Nat)
    (bob_address : String) (fee_bitcoin_sat fee_zkbitcoin_sat : Nat) : Transaction :=
  let inputs : List TxIn :=
    [{ previous_output := { txid := utxo.1, vout := utxo.2 },
       script_sig := .empty,
       sequence := sequenceMax,
       witness := [] }]
  let amount_for_bob := u64sub (u64sub satoshi_amount fee_bitcoin_sat) fee_zkbitcoin_sat
  let outputs : List TxOut :=
    [{ value := amount_for_bob, script_pubkey := .ofAddress bob_address },
     { value := fee_zkbitcoin_sat, script_pubkey := .p2tr ZKBITCOIN_PUBKEY }]
  { version := 2, lock_time := 0, input := inputs, output := outputs }

/-! ### Specification-side predicates for the inclusion rule (claim C2)

The inclusion rule of the spec speaks of character content "inside a VersionDetail
element nested inside a Feature element whose FeatureTypeID equals 344".
That is a statement about element nesting, formalized with an open-element
stack: each frame records the local name of the element and whether it is a
`Feature` carrying `FeatureTypeID="344"`.
-/

/-- One stack update: start events push a frame, end events pop the innermost
frame (document well-nestedness, as the spec reads), others do nothing. -/
def pushFrame (st : List (String × Bool)) : XmlEvt → List (String × Bool)
  | .startElement name attrs =>
    (name, name == "Feature" &&
      attrs.any (fun a => a.1 == "FeatureTypeID" && a.2 == BTC_ID)) :: st
  | .endElement _ => st.tail
  | _ => st

/-- The stack (innermost frame first) has a `VersionDetail` frame strictly
inside a `Feature` frame whose type attribute is `"344"`. -/
def stackQual : List (String × Bool) → Bool
  | [] => false
  | fr :: rest => (fr.1 == "VersionDetail" && rest.any (fun g => g.2)) || stackQual rest

/-- Predicate `specNested st addr evts`: somewhere in `evts`, `addr` occurs as character
content at a point whose open-element stack satisfies `stackQual` — the
inclusion rule of the spec for one address. -/
def specNested (st : List (String × Bool)) (addr : String) : List XmlEvt → Bool
  | [] => false
  | e :: rest =>
    (match e with
     | .characters s => s == addr && stackQual st
     | _ => false) || specNested (pushFrame st e) addr rest

/-! ### The capture condition the code actually implements (claim C2)

Predicate `NoEndVD l` says no event of `l` is an `EndElement` with local name
`VersionDetail`. `FlagQualified evts addr` says `addr` occurs as character
content at a position preceded (in order) by a `Feature` start event whose
attributes contain `FeatureTypeID="344"` and by a later `VersionDetail`
start event, with no `VersionDetail` end event anywhere between the
`Feature` start and the character content.
-/

def isStartF344 : XmlEvt → Bool
  | .startElement name attrs =>
    name == "Feature" && attrs.any (fun a => a.1 == "FeatureTypeID" && a.2 == BTC_ID)
  | _ => false

def isStartVD : XmlEvt → Bool
  | .startElement name _ => name == "VersionDetail"
  | _ => false

def isEndVD : XmlEvt → Bool
  | .endElement name => name == "VersionDetail"
  | _ => false

def NoEndVD (l : List XmlEvt) : Prop :=
  ∀ e ∈ l, isEndVD e = false

/-- A prefix ends in a state where the capture pattern is armed: it contains
a `Feature[344]` start, then (possibly after other events) a `VersionDetail`
start, and no `VersionDetail` end from the `Feature[344]` start onwards. -/
def ArmedPrefix (pre : List XmlEvt) : Prop :=
  ∃ a e₁ b e₂ c, pre = a ++ e₁ :: b ++ e₂ :: c ∧
    isStartF344 e₁ = true ∧ isStartVD e₂ = true ∧ NoEndVD b ∧ NoEndVD c

def FlagQualified (evts : List XmlEvt) (addr : String) : Prop :=
  ∃ pre post, evts = pre ++ XmlEvt.characters addr :: post ∧ ArmedPrefix pre

/-- The tail of an armed prefix after its `VersionDetail` start: a
`VersionDetail` start with no `VersionDetail` end before or after it —
the configuration that keeps `inside_final_elem` set when
`inside_feature_elem` was already set on entry. -/
def VDPrefix (pre : List XmlEvt) : Prop :=
  ∃ a e₂ b, pre = a ++ e₂ :: b ∧ isStartVD e₂ = true ∧ NoEndVD a ∧ NoEndVD b

/-- Invariant tying the loop flags at the start of a suffix to the shape of
the already-consumed prefix. -/
def FlagInv (f v : Bool) (pre : List XmlEvt) : Prop :=
  ArmedPrefix pre ∨ (f = true ∧ VDPrefix pre) ∨ (v = true ∧ NoEndVD pre)

/-! ### Concrete documents used by the claims -/

/-- One `Feature` with `FeatureTypeID="344"` and a nested `VersionDetail`
with text `1A2b3C` (spec §8, first testable property). -/
def doc344 : List XmlEvt :=
  [.startElement "Feature" [("FeatureTypeID", "344")],
   .startElement "VersionDetail" [],
   .characters "1A2b3C",
   .endElement "VersionDetail",
   .endElement "Feature"]

/-- One `Feature` with `FeatureTypeID="999"` and a nested `VersionDetail`
with text `zZyYxX` (spec §8, second testable property). -/
def doc999 : List XmlEvt :=
  [.startElement "Feature" [("FeatureTypeID", "999")],
   .startElement "VersionDetail" [],
   .characters "zZyYxX",
   .endElement "VersionDetail",
   .endElement "Feature"]

/-- A well-nested document whose only `VersionDetail` is a sibling of an
already-closed `Feature[344]`, not nested inside any `Feature`. -/
def docSibling : List XmlEvt :=
  [.startElement "Top" [],
   .startElement "Feature" [("FeatureTypeID", "344")],
   .endElement "Feature",
   .startElement "VersionDetail" [],
   .characters "X",
   .endElement "VersionDetail",
   .endElement "Top"]

/-! ### Basic lemmas about one sync cycle -/

theorem sync_last_update_mono (st : Verifier) (env : CycleEnv) :
    st.last_update ≤ (sync st env).st.last_update := by
  rcases env with ⟨p, fe⟩
  cases p with
  | none => exact le_refl _
  | some pd =>
    by_cases h : st.last_update ≥ pd
    · simp [sync, h]
    · rcases fe with _ | fe
      · simp [sync, h]
        omega
      · rcases fe with _ | evts
        · simp [sync, h]
          omega
        · simp [sync, h]
          omega

theorem run_append (st : Verifier) (l₁ l₂ : List CycleEnv) :
    run st (l₁ ++ l₂) = run (run st l₁) l₂ := by
  simp [run, List.foldl_append]

theorem run_last_update_mono (l : List CycleEnv) :
    ∀ st : Verifier, st.last_update ≤ (run st l).last_update := by
  induction l with
  | nil => intro st; exact le_refl _
  | cons e t ih =>
    intro st
    calc st.last_update ≤ (sync st e).st.last_update := sync_last_update_mono st e
      _ ≤ (run (sync st e).st t).last_update := ih _
      _ = (run st (e :: t)).last_update := by simp [run]

/-- Claim C4: across every sequence of sync cycles from a fresh Registry,
`last_update` never decreases, and each single cycle either leaves it
unchanged or replaces it with a strictly greater probed publish date. -/
theorem c4_last_update_monotone :
    (∀ l₁ l₂ : List CycleEnv,
      (run Verifier.new l₁).last_update ≤ (run Verifier.new (l₁ ++ l₂)).last_update) ∧
    (∀ (st : Verifier) (env : CycleEnv),
      (sync st env).st.last_update = st.last_update ∨
      ∃ pd : Int, env.probe = some pd ∧ st.last_update < pd ∧
        (sync st env).st.last_update = pd) := by
  constructor
  · intro l₁ l₂
    rw [run_append]
    exact run_last_update_mono l₂ _
  · intro st env
    rcases env with ⟨p, fe⟩
    cases p with
    | none => exact Or.inl rfl
    | some pd =>
      by_cases h : st.last_update ≥ pd
      · left
        simp [sync, h]
      · right
        refine ⟨pd, rfl, by omega, ?_⟩
        rcases fe with _ | fe
        · simp [sync, h]
        · rcases fe with _ | evts
          · simp [sync, h]
          · simp [sync, h]

/-- Claim C5: when the probed date is not newer than `last_update`, the cycle
performs no fetch, returns `Ok`, and leaves the whole state unchanged. -/
theorem c5_uptodate_skip (st : Verifier) (env : CycleEnv) (pd : Int)
    (hp : env.probe = some pd) (hle : pd ≤ st.last_update) :
    sync st env = { st := st, ok := true, fetched := false } := by
  rcases env with ⟨p, fe⟩
  simp only at hp
  subst hp
  simp [sync, hle]

theorem c5_uptodate_skip_witness :
    (3 : Int) ≤ (7 : Int) ∧
    sync { sanctioned_addresses := [("a", true)], last_update := 7 }
        { probe := some 3, fetch := some (some doc344) } =
      { st := { sanctioned_addresses := [("a", true)], last_update := 7 },
        ok := true, fetched := false } :=
  ⟨by decide, c5_uptodate_skip _ _ 3 rfl (by decide)⟩

/-- Claim C1 counterexample: from a fresh Registry (`last_update = 0`), a
successful probe reporting date `5` followed by a failed full fetch makes
`sync` return an error, but `last_update` does not stay unchanged. -/
theorem c1_fetch_failure_counterexample :
    (sync Verifier.new { probe := some 5, fetch := none }).ok = false ∧
    (sync Verifier.new { probe := some 5, fetch := none }).st.last_update ≠
      Verifier.new.last_update := by
  decide

/-- Claim C1 as amended: when the probe succeeds with a newer date and the
fetch or the body decode then fails, `sync` returns an error and leaves the
membership map unchanged, but `last_update` has already been advanced to the
probed date (the assignment happens before the fetch). -/
theorem c1_fetch_failure_amended (st : Verifier) (env : CycleEnv) (pd : Int)
    (hp : env.probe = some pd) (hlt : st.last_update < pd)
    (hf : env.fetch = none ∨ env.fetch = some none) :
    (sync st env).ok = false ∧ (sync st env).st.last_update = pd ∧
    (sync st env).st.sanctioned_addresses = st.sanctioned_addresses := by
  rcases env with ⟨p, fe⟩
  simp only at hp hf
  subst hp
  have h : ¬ st.last_update ≥ pd := by omega
  rcases hf with hf | hf <;> subst hf <;> simp [sync, h]

theorem c1_fetch_failure_amended_witness :
    Verifier.new.last_update < 5 ∧
    ((sync Verifier.new { probe := some 5, fetch := none }).ok = false ∧
     (sync Verifier.new { probe := some 5, fetch := none }).st.last_update = 5 ∧
     (sync Verifier.new { probe := some 5, fetch := none }).st.sanctioned_addresses =
       Verifier.new.sanctioned_addresses) :=
  ⟨by decide, c1_fetch_failure_amended _ _ 5 rfl (by decide) (Or.inl rfl)⟩

/-- Claim C6: a document with one `Feature[FeatureTypeID="344"]` holding a
nested `VersionDetail` with text `1A2b3C` makes `is_sanctioned "1A2b3C"`
true after a full sync over it. -/
theorem c6_feature344_sanctioned :
    is_sanctioned
      (sync Verifier.new { probe := some 1, fetch := some (some doc344) }).st
      "1A2b3C" = true := by
  decide

/-! ### Parse-error containment -/

theorem syncParse_break (pre : List XmlEvt) :
    ∀ (f v : Bool) (m : AddrMap) (post : List XmlEvt),
      syncParse f v m (pre ++ XmlEvt.parseError :: post) = syncParse f v m pre := by
  induction pre with
  | nil => intro f v m post; simp [syncParse]
  | cons e rest ih =>
    intro f v m post
    cases e with
    | startElement name attrs =>
      simp only [List.cons_append, syncParse]
      split
      · split <;> exact ih _ _ _ _
      · split <;> exact ih _ _ _ _
    | characters value =>
      simp only [List.cons_append, syncParse]
      split <;> exact ih _ _ _ _
    | endElement name =>
      simp only [List.cons_append, syncParse]
      split <;> exact ih _ _ _ _
    | parseError => rfl
    | other =>
      simp only [List.cons_append, syncParse]
      exact ih _ _ _ _

/-- Claim C7: a reader error mid-pass stops the processing of all remaining
events — the resulting map is exactly the one obtained from the events before
the error, so earlier insertions persist — and `sync` still returns `Ok`. -/
theorem c7_parse_error_containment (st : Verifier) (env : CycleEnv) (pd : Int)
    (pre post : List XmlEvt)
    (hp : env.probe = some pd) (hlt : st.last_update < pd)
    (hf : env.fetch = some (some (pre ++ XmlEvt.parseError :: post))) :
    (sync st env).ok = true ∧
    (sync st env).st.sanctioned_addresses =
      syncParse false false st.sanctioned_addresses pre := by
  rcases env with ⟨p, fe⟩
  simp only at hp hf
  subst hp
  subst hf
  have h : ¬ st.last_update ≥ pd := by omega
  simp [sync, h, syncParse_break]

theorem c7_parse_error_containment_witness :
    Verifier.new.last_update < 1 ∧
    ((sync Verifier.new
        { probe := some 1,
          fetch := some (some (doc344 ++ XmlEvt.parseError :: [XmlEvt.characters "Y"])) }).ok
        = true ∧
     (sync Verifier.new
        { probe := some 1,
          fetch := some (some (doc344 ++ XmlEvt.parseError :: [XmlEvt.characters "Y"])) }).st.sanctioned_addresses
        = syncParse false false Verifier.new.sanctioned_addresses doc344) :=
  ⟨by decide,
   c7_parse_error_containment _ _ 1 doc344 [XmlEvt.characters "Y"] rfl (by decide) rfl⟩

/-- Claim C10: the event loop transcribed from `address_verifier.rs` and the
one transcribed from `compliance.rs` produce identical membership maps on
every event sequence (from any starting flags and map). -/
theorem c10_variants_agree :
    ∀ (evts : List XmlEvt) (f v : Bool) (m : AddrMap),
      startParse f v m evts = syncParse f v m evts := by
  intro evts
  induction evts with
  | nil => intro f v m; rfl
  | cons e rest ih =>
    intro f v m
    cases e with
    | startElement name attrs =>
      simp only [startParse, syncParse]
      split
      · split <;> exact ih _ _ _
      · split <;> exact ih _ _ _
    | characters value =>
      simp only [startParse, syncParse]
      split <;> exact ih _ _ _
    | endElement name =>
      simp only [startParse, syncParse]
      split <;> exact ih _ _ _
    | parseError => rfl
    | other =>
      simp only [startParse, syncParse]
      exact ih _ _ _

/-! ### Map lemmas: inserting `true` is idempotent on membership -/

/-- Every binding of key `k` in `m` carries the value `true`. -/
def allTrue (m : AddrMap) (k : String) : Prop :=
  ∀ p ∈ m, p.1 = k → p.2 = true

theorem map_id_of_forall {α : Type} (l : List α) (f : α → α)
    (h : ∀ a ∈ l, f a = a) : l.map f = l := by
  induction l with
  | nil => rfl
  | cons a t ih =>
    simp only [List.map_cons]
    rw [h a (List.mem_cons_self a t), ih (fun x hx => h x (List.mem_cons_of_mem a hx))]

theorem any_key_map_insert (m : AddrMap) (k x : String) (v : Bool) :
    (m.map (fun p => if p.1 == k then (k, v) else p)).any (fun p => p.1 == x) =
      m.any (fun p => p.1 == x) := by
  induction m with
  | nil => rfl
  | cons p t ih =>
    simp only [List.map_cons, List.any_cons, ih]
    by_cases hpk : (p.1 == k) = true
    · rw [if_pos hpk]
      have hp1 : p.1 = k := beq_iff_eq.mp hpk
      rw [hp1]
    · rw [if_neg hpk]

theorem containsKey_insertMap (m : AddrMap) (k x : String) (v : Bool) :
    containsKey (insertMap m k v) x = true ↔ (containsKey m x = true ∨ x = k) := by
  by_cases h : (m.any fun p => p.1 == k) = true
  · have hL : containsKey (insertMap m k v) x = containsKey m x := by
      unfold containsKey insertMap
      rw [if_pos h]
      exact any_key_map_insert m k x v
    rw [hL]
    constructor
    · exact Or.inl
    · rintro (hx | hx)
      · exact hx
      · subst hx
        exact h
  · have hL : insertMap m k v = m ++ [(k, v)] := by
      unfold insertMap
      rw [if_neg h]
    rw [hL]
    unfold containsKey
    rw [List.any_append]
    simp only [List.any_cons, List.any_nil, Bool.or_false, Bool.or_eq_true, beq_iff_eq]
    exact or_congr Iff.rfl eq_comm

theorem containsKey_insertMap_self (m : AddrMap) (k : String) (v : Bool) :
    containsKey (insertMap m k v) k = true :=
  (containsKey_insertMap m k k v).mpr (Or.inr rfl)

theorem containsKey_insertMap_of (m : AddrMap) (k x : String) (v : Bool)
    (h : containsKey m x = true) : containsKey (insertMap m k v) x = true :=
  (containsKey_insertMap m k x v).mpr (Or.inl h)

theorem allTrue_insertMap_self (m : AddrMap) (k : String) :
    allTrue (insertMap m k true) k := by
  intro p hp hpk
  unfold insertMap at hp
  by_cases h : (m.any fun q => q.1 == k) = true
  · rw [if_pos h] at hp
    obtain ⟨q, hq, hqp⟩ := List.mem_map.mp hp
    by_cases hqk : (q.1 == k) = true
    · rw [if_pos hqk] at hqp
      rw [← hqp]
    · rw [if_neg hqk] at hqp
      rw [← hqp] at hpk
      exact absurd (beq_iff_eq.mpr hpk) hqk
  · rw [if_neg h] at hp
    rcases List.mem_append.mp hp with hp | hp
    · have hm : (m.any fun q => q.1 == k) = true :=
        List.any_eq_true.mpr ⟨p, hp, beq_iff_eq.mpr hpk⟩
      exact absurd hm h
    · rw [List.mem_singleton.mp hp]

theorem allTrue_insertMap_of (m : AddrMap) (k x : String)
    (h : allTrue m x) : allTrue (insertMap m k true) x := by
  intro p hp hpk
  unfold insertMap at hp
  by_cases hk : (m.any fun q => q.1 == k) = true
  · rw [if_pos hk] at hp
    obtain ⟨q, hq, hqp⟩ := List.mem_map.mp hp
    by_cases hqk : (q.1 == k) = true
    · rw [if_pos hqk] at hqp
      rw [← hqp]
    · rw [if_neg hqk] at hqp
      exact h p (hqp ▸ hq) hpk
  · rw [if_neg hk] at hp
    rcases List.mem_append.mp hp with hp | hp
    · exact h p hp hpk
    · rw [List.mem_singleton.mp hp]

theorem insertMap_of_allTrue (m : AddrMap) (k : String)
    (hc : containsKey m k = true) (ht : allTrue m k) : insertMap m k true = m := by
  have hc2 : (m.any fun p => p.1 == k) = true := hc
  unfold insertMap
  rw [if_pos hc2]
  apply map_id_of_forall
  intro p hp
  by_cases hpk : (p.1 == k) = true
  · rw [if_pos hpk]
    have h1 : p.1 = k := beq_iff_eq.mp hpk
    have h2 : p.2 = true := ht p hp h1
    rw [← h1, ← h2]
  · rw [if_neg hpk]

theorem containsKey_insertAll_of (ks : List String) :
    ∀ (m : AddrMap) (x : String), containsKey m x = true →
      containsKey (insertAll m ks) x = true := by
  induction ks with
  | nil => intro m x h; exact h
  | cons k t ih =>
    intro m x h
    exact ih (insertMap m k true) x (containsKey_insertMap_of m k x true h)

theorem allTrue_insertAll_of (ks : List String) :
    ∀ (m : AddrMap) (x : String), allTrue m x → allTrue (insertAll m ks) x := by
  induction ks with
  | nil => intro m x h; exact h
  | cons k t ih =>
    intro m x h
    exact ih (insertMap m k true) x (allTrue_insertMap_of m k x h)

theorem insertAll_mem (ks : List String) :
    ∀ (m : AddrMap) (k : String), k ∈ ks →
      containsKey (insertAll m ks) k = true ∧ allTrue (insertAll m ks) k := by
  induction ks with
  | nil => intro m k h; cases h
  | cons k0 t ih =>
    intro m k h
    rcases List.mem_cons.mp h with h | h
    · subst h
      exact ⟨containsKey_insertAll_of t _ _ (containsKey_insertMap_self m k true),
             allTrue_insertAll_of t _ _ (allTrue_insertMap_self m k)⟩
    · exact ih (insertMap m k0 true) k h

theorem insertAll_of_all_present (ks : List String) :
    ∀ m : AddrMap, (∀ k ∈ ks, containsKey m k = true ∧ allTrue m k) →
      insertAll m ks = m := by
  induction ks with
  | nil => intro m _; rfl
  | cons k0 t ih =>
    intro m h
    have h0 := h k0 (List.mem_cons_self k0 t)
    show insertAll (insertMap m k0 true) t = m
    rw [insertMap_of_allTrue m k0 h0.1 h0.2]
    exact ih m (fun k hk => h k (List.mem_cons_of_mem k0 hk))

theorem containsKey_insertAll_cases (ks : List String) :
    ∀ (m : AddrMap) (x : String), containsKey (insertAll m ks) x = true →
      containsKey m x = true ∨ x ∈ ks := by
  induction ks with
  | nil => intro m x h; exact Or.inl h
  | cons k0 t ih =>
    intro m x h
    rcases ih (insertMap m k0 true) x h with h | h
    · rcases (containsKey_insertMap m k0 x true).mp h with h | h
      · exact Or.inl h
      · exact Or.inr (h ▸ List.mem_cons_self k0 t)
    · exact Or.inr (List.mem_cons_of_mem k0 h)

/-! ### The event loop factored through the emitted address list -/

theorem syncParse_eq_insertAll (evts : List XmlEvt) :
    ∀ (f v : Bool) (m : AddrMap),
      syncParse f v m evts = insertAll m (emitted f v evts) := by
  induction evts with
  | nil => intro f v m; rfl
  | cons e rest ih =>
    intro f v m
    cases e with
    | startElement name attrs =>
      simp only [syncParse, emitted]
      split
      · split <;> exact ih _ _ _
      · split <;> exact ih _ _ _
    | characters value =>
      simp only [syncParse, emitted]
      split
      · exact ih _ _ _
      · exact ih _ _ _
    | endElement name =>
      simp only [syncParse, emitted]
      split <;> exact ih _ _ _
    | parseError => rfl
    | other =>
      simp only [syncParse, emitted]
      exact ih _ _ _

/-- Claim C8: running the parse pass twice over the same body leaves the
Registry exactly as running it once — inserting an already-present address
with flag `true` is a no-op. -/
theorem c8_reparse_idempotent (m : AddrMap) (evts : List XmlEvt) :
    syncParse false false (syncParse false false m evts) evts =
      syncParse false false m evts := by
  rw [syncParse_eq_insertAll, syncParse_eq_insertAll]
  exact insertAll_of_all_present _ _
    (fun k hk => insertAll_mem (emitted false false evts) m k hk)

/-! ### What the flag machine captures (claim C2) -/

theorem NoEndVD_nil : NoEndVD [] := by
  intro e he
  cases he

theorem NoEndVD_cons (e : XmlEvt) (pre : List XmlEvt)
    (he : isEndVD e = false) (h : NoEndVD pre) : NoEndVD (e :: pre) := by
  intro x hx
  rcases List.mem_cons.mp hx with hx | hx
  · subst hx; exact he
  · exact h x hx

theorem ArmedPrefix_cons (e : XmlEvt) {pre : List XmlEvt}
    (h : ArmedPrefix pre) : ArmedPrefix (e :: pre) := by
  obtain ⟨a, e₁, b, e₂, c, hpre, h1, h2, hb, hc⟩ := h
  exact ⟨e :: a, e₁, b, e₂, c, by rw [hpre]; rfl, h1, h2, hb, hc⟩

theorem VDPrefix_cons (e : XmlEvt) {pre : List XmlEvt}
    (he : isEndVD e = false) (h : VDPrefix pre) : VDPrefix (e :: pre) := by
  obtain ⟨a, e₂, b, hpre, h2, ha, hb⟩ := h
  exact ⟨e :: a, e₂, b, by rw [hpre]; rfl, h2, NoEndVD_cons e a he ha, hb⟩

theorem ArmedPrefix_of_VDPrefix (e : XmlEvt) {pre : List XmlEvt}
    (he : isStartF344 e = true) (h : VDPrefix pre) : ArmedPrefix (e :: pre) := by
  obtain ⟨a, e₂, b, hpre, h2, ha, hb⟩ := h
  exact ⟨[], e, a, e₂, b, by rw [hpre]; rfl, he, h2, ha, hb⟩

theorem VDPrefix_of_NoEndVD (e : XmlEvt) {pre : List XmlEvt}
    (he : isStartVD e = true) (h : NoEndVD pre) : VDPrefix (e :: pre) :=
  ⟨[], e, pre, rfl, he, NoEndVD_nil, h⟩

theorem FlagInv_cons (f v : Bool) (e : XmlEvt) {pre : List XmlEvt}
    (he : isEndVD e = false) (h : FlagInv f v pre) : FlagInv f v (e :: pre) := by
  rcases h with hQ | ⟨hf, hQV⟩ | ⟨hv, hN⟩
  · exact Or.inl (ArmedPrefix_cons e hQ)
  · exact Or.inr (Or.inl ⟨hf, VDPrefix_cons e he hQV⟩)
  · exact Or.inr (Or.inr ⟨hv, NoEndVD_cons e pre he hN⟩)

/-- Main characterization: every address the event loop emits sits at a
position whose preceding prefix matches the flag configuration described by
`FlagInv` for the starting flags. -/
theorem emitted_mem_flaginv (evts : List XmlEvt) :
    ∀ (f v : Bool) (addr : String), (v = true → f = true) →
      addr ∈ emitted f v evts →
      ∃ pre post, evts = pre ++ XmlEvt.characters addr :: post ∧ FlagInv f v pre := by
  induction evts with
  | nil =>
    intro f v addr _ h
    cases h
  | cons e rest ih =>
    intro f v addr hinv hmem
    cases e with
    | startElement name attrs =>
      by_cases h1 : (name == "Feature") = true
      · by_cases h2 : (attrs.any fun a => a.1 == "FeatureTypeID" && a.2 == BTC_ID) = true
        · simp only [emitted, if_pos h1, if_pos h2] at hmem
          obtain ⟨pre, post, hsplit, hR⟩ := ih true v addr (fun _ => rfl) hmem
          refine ⟨.startElement name attrs :: pre, post, by rw [hsplit]; rfl, ?_⟩
          have hS : isStartF344 (.startElement name attrs) = true := by
            simp [isStartF344, h1, h2]
          rcases hR with hQ | ⟨_, hQV⟩ | ⟨hv, hN⟩
          · exact Or.inl (ArmedPrefix_cons _ hQ)
          · exact Or.inl (ArmedPrefix_of_VDPrefix _ hS hQV)
          · exact Or.inr (Or.inr ⟨hv, NoEndVD_cons _ _ rfl hN⟩)
        · simp only [emitted, if_pos h1, if_neg h2] at hmem
          obtain ⟨pre, post, hsplit, hR⟩ := ih f v addr hinv hmem
          exact ⟨.startElement name attrs :: pre, post, by rw [hsplit]; rfl,
                 FlagInv_cons f v _ rfl hR⟩
      · by_cases h3 : (name == "VersionDetail" && f) = true
        · have h3p : (name == "VersionDetail") = true ∧ f = true := by
            simpa using h3
          have hf : f = true := h3p.2
          subst hf
          simp only [emitted, if_neg h1, if_pos h3] at hmem
          obtain ⟨pre, post, hsplit, hR⟩ := ih true true addr (fun _ => rfl) hmem
          refine ⟨.startElement name attrs :: pre, post, by rw [hsplit]; rfl, ?_⟩
          have hSV : isStartVD (.startElement name attrs) = true := by
            simp only [isStartVD]
            exact h3p.1
          rcases hR with hQ | ⟨_, hQV⟩ | ⟨_, hN⟩
          · exact Or.inl (ArmedPrefix_cons _ hQ)
          · exact Or.inr (Or.inl ⟨rfl, VDPrefix_cons _ rfl hQV⟩)
          · exact Or.inr (Or.inl ⟨rfl, VDPrefix_of_NoEndVD _ hSV hN⟩)
        · simp only [emitted, if_neg h1, if_neg h3] at hmem
          obtain ⟨pre, post, hsplit, hR⟩ := ih f v addr hinv hmem
          exact ⟨.startElement name attrs :: pre, post, by rw [hsplit]; rfl,
                 FlagInv_cons f v _ rfl hR⟩
    | characters value =>
      by_cases hv : v = true
      · simp only [emitted, if_pos hv] at hmem
        rcases List.mem_cons.mp hmem with he | hmem
        · subst he
          exact ⟨[], rest, rfl, Or.inr (Or.inr ⟨hv, NoEndVD_nil⟩)⟩
        · obtain ⟨pre, post, hsplit, hR⟩ := ih f v addr hinv hmem
          exact ⟨.characters value :: pre, post, by rw [hsplit]; rfl,
                 FlagInv_cons f v _ rfl hR⟩
      · simp only [emitted, if_neg hv] at hmem
        obtain ⟨pre, post, hsplit, hR⟩ := ih f v addr hinv hmem
        exact ⟨.characters value :: pre, post, by rw [hsplit]; rfl,
               FlagInv_cons f v _ rfl hR⟩
    | endElement name =>
      by_cases h3 : (name == "VersionDetail" && f) = true
      · simp only [emitted, if_pos h3] at hmem
        obtain ⟨pre, post, hsplit, hR⟩ := ih false false addr (by simp) hmem
        rcases hR with hQ | ⟨hf, _⟩ | ⟨hv, _⟩
        · exact ⟨.endElement name :: pre, post, by rw [hsplit]; rfl,
                 Or.inl (ArmedPrefix_cons _ hQ)⟩
        · exact (Bool.false_ne_true hf).elim
        · exact (Bool.false_ne_true hv).elim
      · simp only [emitted, if_neg h3] at hmem
        by_cases hEnd : (name == "VersionDetail") = true
        · have hf : f = false := by
            cases f with
            | true => exact absurd (by rw [hEnd]; rfl) h3
            | false => rfl
          have hv : v = false := by
            cases v with
            | true => exact absurd (hinv rfl) (by rw [hf]; exact Bool.false_ne_true)
            | false => rfl
          subst hf
          subst hv
          obtain ⟨pre, post, hsplit, hR⟩ := ih false false addr (by simp) hmem
          rcases hR with hQ | ⟨hf2, _⟩ | ⟨hv2, _⟩
          · exact ⟨.endElement name :: pre, post, by rw [hsplit]; rfl,
                   Or.inl (ArmedPrefix_cons _ hQ)⟩
          · exact (Bool.false_ne_true hf2).elim
          · exact (Bool.false_ne_true hv2).elim
        · obtain ⟨pre, post, hsplit, hR⟩ := ih f v addr hinv hmem
          refine ⟨.endElement name :: pre, post, by rw [hsplit]; rfl, ?_⟩
          have hE : isEndVD (.endElement name) = false := by
            simp [isEndVD, hEnd]
          exact FlagInv_cons f v _ hE hR
    | parseError =>
      cases hmem
    | other =>
      simp only [emitted] at hmem
      obtain ⟨pre, post, hsplit, hR⟩ := ih f v addr hinv hmem
      exact ⟨.other :: pre, post, by rw [hsplit]; rfl, FlagInv_cons f v _ rfl hR⟩

/-- Claim C2 counterexample: in the well-nested document `docSibling`, the
only `VersionDetail` is a sibling of an already closed `Feature[344]`, yet
its text `X` is inserted — while the nesting-based inclusion rule of the
specification does not qualify it. -/
theorem c2_inclusion_counterexample :
    containsKey (syncParse false false [] docSibling) "X" = true ∧
    specNested [] "X" docSibling = false := by
  decide

/-- Claim C2 as amended: every address the full parse pass inserts is
character content preceded by a `Feature` start with `FeatureTypeID="344"`
and a later `VersionDetail` start, with no `VersionDetail` end event between
the `Feature` start and the content (the machine does not require the
`Feature` element to still be open); and for the document whose only
`Feature` has `FeatureTypeID="999"`, `isSanctioned "zZyYxX"` is false. -/
theorem c2_inclusion_amended :
    (∀ (evts : List XmlEvt) (addr : String),
      containsKey (syncParse false false [] evts) addr = true →
      ∃ pre post, evts = pre ++ XmlEvt.characters addr :: post ∧ ArmedPrefix pre) ∧
    is_sanctioned
      (sync Verifier.new { probe := some 1, fetch := some (some doc999) }).st
      "zZyYxX" = false := by
  constructor
  · intro evts addr h
    rw [syncParse_eq_insertAll] at h
    have hmem : addr ∈ emitted false false evts := by
      rcases containsKey_insertAll_cases _ _ _ h with h | h
      · simp [containsKey] at h
      · exact h
    obtain ⟨pre, post, hsplit, hR⟩ :=
      emitted_mem_flaginv evts false false addr (by simp) hmem
    refine ⟨pre, post, hsplit, ?_⟩
    rcases hR with hQ | ⟨hf, _⟩ | ⟨hv, _⟩
    · exact hQ
    · exact (Bool.false_ne_true hf).elim
    · exact (Bool.false_ne_true hv).elim
  · decide

theorem c2_inclusion_amended_witness :
    containsKey (syncParse false false [] doc344) "1A2b3C" = true ∧
    (∃ pre post, doc344 = pre ++ XmlEvt.characters "1A2b3C" :: post ∧ ArmedPrefix pre) :=
  ⟨by decide, c2_inclusion_amended.1 doc344 "1A2b3C" (by decide)⟩

/-! ### Transaction construction (claim C9) -/

/-- Claim C9: with `fee_bitcoin_sat + fee_zkbitcoin_sat <= satoshi_amount`
the payout subtraction does not underflow and the built transaction has
exactly one input referencing the given utxo and exactly two outputs — the
first paying `satoshi_amount - fee_bitcoin_sat - fee_zkbitcoin_sat` to the
given address, the second paying `fee_zkbitcoin_sat`; without the
precondition the subtraction underflows. -/
theorem c9_create_transaction_shape :
    (∀ (txid : String) (vout satoshi_amount : Nat) (bob_address : String)
       (fee_bitcoin_sat fee_zkbitcoin_sat : Nat),
      fee_bitcoin_sat + fee_zkbitcoin_sat ≤ satoshi_amount →
      (create_transaction (txid, vout) satoshi_amount bob_address
          fee_bitcoin_sat fee_zkbitcoin_sat).input =
        [{ previous_output := { txid := txid, vout := vout },
           script_sig := .empty, sequence := sequenceMax, witness := [] }] ∧
      (create_transaction (txid, vout) satoshi_amount bob_address
          fee_bitcoin_sat fee_zkbitcoin_sat).output =
        [{ value := satoshi_amount - fee_bitcoin_sat - fee_zkbitcoin_sat,
           script_pubkey := .ofAddress bob_address },
         { value := fee_zkbitcoin_sat, script_pubkey := .p2tr ZKBITCOIN_PUBKEY }] ∧
      checkedPayout satoshi_amount fee_bitcoin_sat fee_zkbitcoin_sat =
        some (satoshi_amount - fee_bitcoin_sat - fee_zkbitcoin_sat)) ∧
    (∀ satoshi_amount fee_bitcoin_sat fee_zkbitcoin_sat : Nat,
      satoshi_amount < fee_bitcoin_sat + fee_zkbitcoin_sat →
      checkedPayout satoshi_amount fee_bitcoin_sat fee_zkbitcoin_sat = none) := by
  constructor
  · intro txid vout satoshi_amount bob_address fee_bitcoin_sat fee_zkbitcoin_sat h
    have h1 : fee_bitcoin_sat ≤ satoshi_amount := by omega
    have h2 : fee_zkbitcoin_sat ≤ satoshi_amount - fee_bitcoin_sat := by omega
    refine ⟨rfl, ?_, ?_⟩
    · simp [create_transaction, u64sub, h1, h2]
    · simp [checkedPayout, h1, h2]
  · intro satoshi_amount fee_bitcoin_sat fee_zkbitcoin_sat h
    unfold checkedPayout
    by_cases h1 : fee_bitcoin_sat ≤ satoshi_amount
    · rw [if_pos h1, if_neg (by omega)]
    · rw [if_neg h1]

theorem c9_create_transaction_shape_witness :
    800 + 200 ≤ 1000 ∧
    ((create_transaction ("utxo-tx", 0) 1000 "bob-address" 800 200).input =
        [{ previous_output := { txid := "utxo-tx", vout := 0 },
           script_sig := .empty, sequence := sequenceMax, witness := [] }] ∧
     (create_transaction ("utxo-tx", 0) 1000 "bob-address" 800 200).output =
        [{ value := 1000 - 800 - 200, script_pubkey := .ofAddress "bob-address" },
         { value := 200, script_pubkey := .p2tr ZKBITCOIN_PUBKEY }] ∧
     checkedPayout 1000 800 200 = some (1000 - 800 - 200)) :=
  ⟨by decide,
   c9_create_transaction_shape.1 "utxo-tx" 0 1000 "bob-address" 800 200 (by decide)⟩

/-! ### Extractor lemmas (claim C3) -/

theorem space_not_digit (c : Char) (h : isSpaceChar c = true) : c.isDigit = false := by
  simp only [isSpaceChar, Bool.or_eq_true, beq_iff_eq] at h
  rcases h with ((((h | h) | h) | h) | h) | h <;> subst h <;> decide

theorem digit_not_space (c : Char) (h : c.isDigit = true) : isSpaceChar c = false := by
  cases hs : isSpaceChar c with
  | false => rfl
  | true => rw [space_not_digit c hs] at h; exact (Bool.false_ne_true h).elim

theorem digit_word (c : Char) (h : c.isDigit = true) : isWordChar c = true := by
  simp [isWordChar, Char.isAlphanum, h]

theorem digit_not_plus (c : Char) (h : c.isDigit = true) : (c == '+') = false := by
  cases hp : c == '+' with
  | false => rfl
  | true =>
    rw [beq_iff_eq.mp hp] at h
    exact absurd h (by decide)

theorem takeWhile_append_cons (p : Char → Bool) (l₁ : List Char) (c : Char)
    (t : List Char) (h₁ : ∀ x ∈ l₁, p x = true) (h₂ : p c = false) :
    (l₁ ++ c :: t).takeWhile p = l₁ := by
  induction l₁ with
  | nil => simp [List.takeWhile_cons, h₂]
  | cons a l ih =>
    have ha : p a = true := h₁ a (List.mem_cons_self a l)
    simp only [List.cons_append, List.takeWhile_cons, ha, if_true]
    rw [ih (fun x hx => h₁ x (List.mem_cons_of_mem a hx))]

theorem dropWhile_append_cons (p : Char → Bool) (l₁ : List Char) (c : Char)
    (t : List Char) (h₁ : ∀ x ∈ l₁, p x = true) (h₂ : p c = false) :
    (l₁ ++ c :: t).dropWhile p = c :: t := by
  induction l₁ with
  | nil => simp [List.dropWhile_cons, h₂]
  | cons a l ih =>
    have ha : p a = true := h₁ a (List.mem_cons_self a l)
    simp only [List.cons_append, List.dropWhile_cons, ha, if_true]
    exact ih (fun x hx => h₁ x (List.mem_cons_of_mem a hx))

theorem findFirstMatch_skip (tag pre : List Char) (c : Char) (rest : List Char)
    (h : ((tag ++ ['>']).isSuffixOf pre) = false) :
    findFirstMatch tag pre (c :: rest) = findFirstMatch tag (pre ++ [c]) rest := by
  simp [findFirstMatch, tryMatch, h]

/-- At a position whose lookbehind succeeds, a nonempty digit run followed by
the end-marker text matches, and the match is exactly the digit run. -/
theorem tryMatch_year_digits (pre d : List Char)
    (hpre : ((tagYear ++ ['>']).isSuffixOf pre) = true)
    (hd : d ≠ []) (hdig : ∀ c ∈ d, c.isDigit = true) :
    tryMatch tagYear pre (d ++ closeYear) = some d := by
  obtain ⟨c0, d', rfl⟩ := List.exists_cons_of_ne_nil hd
  have hall : ∀ x ∈ c0 :: d', isWordChar x = true :=
    fun x hx => digit_word x (hdig x hx)
  have hc0 : isSpaceChar c0 = false :=
    digit_not_space c0 (hdig c0 (List.mem_cons_self c0 d'))
  have hdw : ((c0 :: d') ++ closeYear).dropWhile isSpaceChar = (c0 :: d') ++ closeYear := by
    simp [List.dropWhile_cons, hc0]
  have htwsp : ((c0 :: d') ++ closeYear).takeWhile isSpaceChar = [] := by
    simp [List.takeWhile_cons, hc0]
  have htw : ((c0 :: d') ++ closeYear).takeWhile isWordChar = c0 :: d' :=
    takeWhile_append_cons isWordChar (c0 :: d') '<' ('/' :: tagYear ++ ['>']) hall rfl
  have hdw2 : ((c0 :: d') ++ closeYear).dropWhile isWordChar = closeYear :=
    dropWhile_append_cons isWordChar (c0 :: d') '<' ('/' :: tagYear ++ ['>']) hall rfl
  unfold tryMatch
  rw [if_pos hpre, hdw, htw, hdw2, htwsp]
  rw [if_neg (by simp), if_pos (by decide)]
  simp

theorem parseU32_digits (d : List Char) (hd : d ≠ [])
    (hdig : ∀ c ∈ d, c.isDigit = true) (hlt : charsToNat d < 2 ^ 32) :
    parseU32 d = some (charsToNat d) := by
  obtain ⟨c0, d', rfl⟩ := List.exists_cons_of_ne_nil hd
  have hplus : (c0 == '+') = false :=
    digit_not_plus c0 (hdig c0 (List.mem_cons_self c0 d'))
  have hall : (c0 :: d').all Char.isDigit = true :=
    List.all_eq_true.mpr hdig
  simp [parseU32, hplus, hall]
  omega

/-- Scanning `<Year>` ++ digits ++ `</Year>`: the first successful position is
right after the start marker, and the match is the digit run. -/
theorem findFirstMatch_open (d : List Char) (hd : d ≠ [])
    (hdig : ∀ c ∈ d, c.isDigit = true) :
    findFirstMatch tagYear [] (openYear ++ (d ++ closeYear)) = some d := by
  have h0 : openYear ++ (d ++ closeYear) =
      '<' :: 'Y' :: 'e' :: 'a' :: 'r' :: '>' :: (d ++ closeYear) := rfl
  rw [h0]
  rw [findFirstMatch_skip _ _ _ _ (by decide)]
  rw [findFirstMatch_skip _ _ _ _ (by decide)]
  rw [findFirstMatch_skip _ _ _ _ (by decide)]
  rw [findFirstMatch_skip _ _ _ _ (by decide)]
  rw [findFirstMatch_skip _ _ _ _ (by decide)]
  rw [findFirstMatch_skip _ _ _ _ (by decide)]
  show findFirstMatch tagYear openYear (d ++ closeYear) = some d
  obtain ⟨c0, d', rfl⟩ := List.exists_cons_of_ne_nil hd
  have ht : tryMatch tagYear openYear (c0 :: (d' ++ closeYear)) = some (c0 :: d') := by
    have h := tryMatch_year_digits openYear (c0 :: d') (by decide) (by simp) hdig
    simpa using h
  have ht2 : tryMatch tagYear openYear (c0 :: List.append d' closeYear) = some (c0 :: d') := ht
  simp only [List.cons_append, findFirstMatch, ht2]

/-- Scanning `</Year>` ++ digits ++ `</Year>`: the lookbehind also fires right
after the end marker, so the match is again the digit run. -/
theorem findFirstMatch_close (d : List Char) (hd : d ≠ [])
    (hdig : ∀ c ∈ d, c.isDigit = true) :
    findFirstMatch tagYear [] (closeYear ++ (d ++ closeYear)) = some d := by
  have h0 : closeYear ++ (d ++ closeYear) =
      '<' :: '/' :: 'Y' :: 'e' :: 'a' :: 'r' :: '>' :: (d ++ closeYear) := rfl
  rw [h0]
  rw [findFirstMatch_skip _ _ _ _ (by decide)]
  rw [findFirstMatch_skip _ _ _ _ (by decide)]
  rw [findFirstMatch_skip _ _ _ _ (by decide)]
  rw [findFirstMatch_skip _ _ _ _ (by decide)]
  rw [findFirstMatch_skip _ _ _ _ (by decide)]
  rw [findFirstMatch_skip _ _ _ _ (by decide)]
  rw [findFirstMatch_skip _ _ _ _ (by decide)]
  show findFirstMatch tagYear closeYear (d ++ closeYear) = some d
  obtain ⟨c0, d', rfl⟩ := List.exists_cons_of_ne_nil hd
  have ht : tryMatch tagYear closeYear (c0 :: (d' ++ closeYear)) = some (c0 :: d') := by
    have h := tryMatch_year_digits closeYear (c0 :: d') (by decide) (by simp) hdig
    simpa using h
  have ht2 : tryMatch tagYear closeYear (c0 :: List.append d' closeYear) = some (c0 :: d') := ht
  simp only [List.cons_append, findFirstMatch, ht2]

/-- Claim C3 counterexample: in `</Year>123</Year>` there is no text enclosed
between a start marker `<Year>` and an end marker, so the stated contract
demands an error; the code returns `123`, because its lookbehind `Year>` also
matches the tail of the end marker `</Year>`. -/
theorem c3_extract_counterexample :
    extract_from_xml (closeYear ++ (['1', '2', '3'] ++ closeYear)) tagYear = some 123 ∧
    specExtract (closeYear ++ (['1', '2', '3'] ++ closeYear)) tagYear = none := by
  decide

/-- Claim C3 as amended: `extract_from_xml` returns the number matched at the
first position directly preceded by the literal text `TAG>` — whether that
text comes from a start marker `<TAG>` or from an end marker `</TAG>` — and
directly followed by a word run and `</TAG`; in particular, for every
nonempty digit run NUM of value below `2^32`, both `<Year>NUM</Year>` and
`</Year>NUM</Year>` yield NUM. -/
theorem c3_extract_amended (d : List Char) (hd : d ≠ [])
    (hdig : ∀ c ∈ d, c.isDigit = true) (hlt : charsToNat d < 2 ^ 32) :
    extract_from_xml (openYear ++ (d ++ closeYear)) tagYear = some (charsToNat d) ∧
    extract_from_xml (closeYear ++ (d ++ closeYear)) tagYear = some (charsToNat d) := by
  constructor
  · unfold extract_from_xml
    rw [findFirstMatch_open d hd hdig]
    exact parseU32_digits d hd hdig hlt
  · unfold extract_from_xml
    rw [findFirstMatch_close d hd hdig]
    exact parseU32_digits d hd hdig hlt

theorem c3_extract_amended_witness :
    (['4', '0', '7'] : List Char) ≠ [] ∧
    (extract_from_xml (openYear ++ (['4', '0', '7'] ++ closeYear)) tagYear =
        some (charsToNat ['4', '0', '7']) ∧
     extract_from_xml (closeYear ++ (['4', '0', '7'] ++ closeYear)) tagYear =
        some (charsToNat ['4', '0', '7'])) :=
  ⟨by decide, c3_extract_amended ['4', '0', '7'] (by decide) (by decide) (by decide)⟩
